import Mathlib

/-
Verification of the backward schema-reconciliation core of
secretflow/component/model_export/model_export.py.

The embedding models:
  * pyarrow schemas as ordered lists of named, typed fields;
  * per-party maps (Python dicts keyed by PYU) as association lists keyed
    by the party string, with Python-dict update semantics (update in
    place when the key exists, append otherwise);
  * the two core functions `rebuild_schema` and
    `rebuild_preprocessing_nodes`.  Python exceptions (assert failures,
    KeyError, ValueError) become an explicit error type.  Since
    `rebuild_preprocessing_nodes` mutates the builder's nodes in place
    before it can raise the column-traceability ValueError, the Lean
    version returns the pair (builder state at exit, result).
-/

namespace SFModelExport

/-- One pyarrow field: a column name plus a type tag. -/
structure PaField where
  name : String
  dtype : String
deriving DecidableEq

/-- A pyarrow schema: an ordered sequence of fields for one party. -/
abbrev Schema := List PaField

/-- Names of a schema's fields, in order (pa.Schema.names). -/
def Schema.names (s : Schema) : List String := s.map PaField.name

/-- Membership of a name in a list of names (the Python `in` test). -/
def memStr (l : List String) (n : String) : Bool := l.any (fun x => x == n)

/-- Membership of a column name in a schema (name `in` schema.names). -/
def Schema.hasName (s : Schema) (n : String) : Bool := memStr (Schema.names s) n

theorem memStr_iff (l : List String) (n : String) : memStr l n = true ↔ n ∈ l := by
  simp [memStr, List.any_eq_true]

theorem hasName_iff (s : Schema) (n : String) :
    Schema.hasName s n = true ↔ ∃ f ∈ s, PaField.name f = n := by
  simp [Schema.hasName, memStr_iff, Schema.names, List.mem_map]

theorem hasName_eq_false (s : Schema) (n : String) :
    Schema.hasName s n = false ↔ ∀ f ∈ s, PaField.name f ≠ n := by
  rw [← Bool.not_eq_true, hasName_iff]
  simp

theorem hasName_append (s t : Schema) (n : String) :
    Schema.hasName (s ++ t) n = (Schema.hasName s n || Schema.hasName t n) := by
  simp [Schema.hasName, memStr, Schema.names, List.any_append]

/-- Lookup in a Python-dict model: first entry with the given key. -/
def alookup {α : Type} : List (String × α) → String → Option α
  | [], _ => none
  | e :: rest, k => if e.fst = k then some e.snd else alookup rest k

/-- Python-dict assignment: overwrite in place when the key is present,
append at the end otherwise. -/
def assocSet {α : Type} (m : List (String × α)) (k : String) (v : α) :
    List (String × α) :=
  if (alookup m k).isSome then
    m.map (fun e => if e.fst = k then (k, v) else e)
  else m ++ [(k, v)]

/--
The schema-repair step (ModelExport.rebuild_schema, lines 231-264).

The Python loop over `trace_schema` builds, in a single pass, the list of
trace fields that are kept (those not manufactured by the node), the kept
fields missing from `in_schema`, and the kept fields missing from
`out_schema`; those three lists are expressed here as filters of the trace
in the same order.  Then every `in_schema` field absent from the original
trace names is appended to the new trace, and the pending fields are
appended to `in_schema` / `out_schema`.
-/
def rebuild_schema (trace_schema in_schema out_schema : Schema) :
    Schema × Schema × Schema :=
  let kept := trace_schema.filter fun f =>
    Schema.hasName in_schema f.name || ! Schema.hasName out_schema f.name
  let new_in_fields := kept.filter fun f => ! Schema.hasName in_schema f.name
  let new_out_fields := kept.filter fun f => ! Schema.hasName out_schema f.name
  let added := in_schema.filter fun f => ! Schema.hasName trace_schema f.name
  (kept ++ added, in_schema ++ new_in_fields, out_schema ++ new_out_fields)

/-- Claim C5: a name in `out_schema` but not `in_schema` never survives into the
new trace. -/
theorem rebuild_schema_drops_manufactured (trace_schema in_schema out_schema : Schema)
    (n : String) (hin : Schema.hasName in_schema n = false)
    (hout : Schema.hasName out_schema n = true) :
    Schema.hasName (rebuild_schema trace_schema in_schema out_schema).1 n = false := by
  show Schema.hasName (_ ++ _) n = false
  rw [hasName_append, Bool.or_eq_false_iff]
  constructor
  · rw [hasName_eq_false]
    intro f hf hname
    rw [List.mem_filter] at hf
    rw [hname, hin, hout] at hf
    simp at hf
  · rw [hasName_eq_false]
    intro f hf hname
    rw [List.mem_filter] at hf
    have : Schema.hasName in_schema n = true :=
      (hasName_iff _ _).mpr ⟨f, hf.1, hname⟩
    rw [hin] at this
    exact Bool.false_ne_true this

/-- Claim C6: an `in_schema` field whose name is absent from the trace is put
into the new trace. -/
theorem rebuild_schema_adds_consumed (trace_schema in_schema out_schema : Schema)
    (f : PaField) (hf : f ∈ in_schema)
    (habs : Schema.hasName trace_schema f.name = false) :
    f ∈ (rebuild_schema trace_schema in_schema out_schema).1 := by
  show f ∈ _ ++ _
  refine List.mem_append_right _ ?_
  rw [List.mem_filter]
  exact ⟨hf, by rw [habs]; rfl⟩

/-- Claim C7: applying the repair step again with the new trace, against the same
`in_schema`/`out_schema`, leaves the trace unchanged. -/
theorem rebuild_schema_trace_idem (trace_schema in_schema out_schema : Schema) :
    (rebuild_schema (rebuild_schema trace_schema in_schema out_schema).1
      in_schema out_schema).1 =
    (rebuild_schema trace_schema in_schema out_schema).1 := by
  set t1 := (rebuild_schema trace_schema in_schema out_schema).1 with ht1
  show t1.filter _ ++ in_schema.filter _ = t1
  have hkeep : t1.filter (fun f =>
      Schema.hasName in_schema f.name || ! Schema.hasName out_schema f.name) = t1 := by
    rw [List.filter_eq_self]
    intro f hf
    rw [ht1] at hf
    rcases List.mem_append.mp hf with hk | ha
    · exact (List.mem_filter.mp hk).2
    · have hfin : f ∈ in_schema := (List.mem_filter.mp ha).1
      have : Schema.hasName in_schema f.name = true :=
        (hasName_iff _ _).mpr ⟨f, hfin, rfl⟩
      rw [this]; rfl
  have hadd : in_schema.filter (fun f => ! Schema.hasName t1 f.name) = [] := by
    rw [List.filter_eq_nil_iff]
    intro f hfin
    suffices h : Schema.hasName t1 f.name = true by
      rw [h]; simp
    cases htr : Schema.hasName trace_schema f.name with
    | true =>
        obtain ⟨g, hg, hgname⟩ := (hasName_iff _ _).mp htr
        have hgkept : g ∈ t1 := by
          rw [ht1]
          refine List.mem_append_left _ ?_
          rw [List.mem_filter]
          refine ⟨hg, ?_⟩
          have : Schema.hasName in_schema g.name = true := by
            rw [show g.name = f.name from hgname]
            exact (hasName_iff _ _).mpr ⟨f, hfin, rfl⟩
          rw [this]; rfl
        exact (hasName_iff _ _).mpr ⟨g, hgkept, hgname⟩
    | false =>
        have : f ∈ t1 := by
          rw [ht1]
          refine List.mem_append_right _ ?_
          rw [List.mem_filter]
          exact ⟨hfin, by rw [htr]; rfl⟩
        exact (hasName_iff _ _).mpr ⟨f, this, rfl⟩
  rw [hkeep, hadd, List.append_nil]

theorem names_filter_sublist (s : Schema) (p : PaField → Bool) :
    List.Sublist (Schema.names (s.filter p)) (Schema.names s) :=
  List.Sublist.map PaField.name (List.filter_sublist s)

theorem names_append (s t : Schema) :
    Schema.names (s ++ t) = Schema.names s ++ Schema.names t :=
  List.map_append PaField.name s t

theorem mem_names (s : Schema) (n : String) :
    n ∈ Schema.names s ↔ ∃ f ∈ s, PaField.name f = n := by
  rw [← memStr_iff]
  exact hasName_iff s n

/-- Claim C9: when the trace, input and output schemas each have pairwise
distinct column names, so do all three schemas that the repair step
returns. -/
theorem rebuild_schema_nodup (trace_schema in_schema out_schema : Schema)
    (ht : (Schema.names trace_schema).Nodup)
    (hi : (Schema.names in_schema).Nodup)
    (ho : (Schema.names out_schema).Nodup) :
    (Schema.names (rebuild_schema trace_schema in_schema out_schema).1).Nodup ∧
    (Schema.names (rebuild_schema trace_schema in_schema out_schema).2.1).Nodup ∧
    (Schema.names (rebuild_schema trace_schema in_schema out_schema).2.2).Nodup := by
  refine ⟨?_, ?_, ?_⟩
  · show (Schema.names (_ ++ _)).Nodup
    rw [names_append, List.nodup_append]
    refine ⟨ht.sublist (names_filter_sublist _ _),
            hi.sublist (names_filter_sublist _ _), ?_⟩
    intro n hkept hadded
    obtain ⟨f, hf, hfn⟩ := (mem_names _ _).mp hkept
    obtain ⟨g, hg, hgn⟩ := (mem_names _ _).mp hadded
    have hgfilt := List.mem_filter.mp hg
    have : Schema.hasName trace_schema g.name = true :=
      (hasName_iff _ _).mpr ⟨f, (List.mem_filter.mp hf).1, by rw [hfn, hgn]⟩
    rw [this] at hgfilt
    simp at hgfilt
  · show (Schema.names (_ ++ _)).Nodup
    rw [names_append, List.nodup_append]
    refine ⟨hi, (ht.sublist (names_filter_sublist _ _)).sublist
              (List.Sublist.map PaField.name (List.filter_sublist _)), ?_⟩
    intro n hin hpend
    obtain ⟨g, hg, hgn⟩ := (mem_names _ _).mp hpend
    have hgfilt := List.mem_filter.mp hg
    have : Schema.hasName in_schema g.name = true := by
      obtain ⟨f, hf, hfn⟩ := (mem_names _ _).mp hin
      exact (hasName_iff _ _).mpr ⟨f, hf, by rw [hfn, hgn]⟩
    rw [this] at hgfilt
    simp at hgfilt
  · show (Schema.names (_ ++ _)).Nodup
    rw [names_append, List.nodup_append]
    refine ⟨ho, (ht.sublist (names_filter_sublist _ _)).sublist
              (List.Sublist.map PaField.name (List.filter_sublist _)), ?_⟩
    intro n hout hpend
    obtain ⟨g, hg, hgn⟩ := (mem_names _ _).mp hpend
    have hgfilt := List.mem_filter.mp hg
    have : Schema.hasName out_schema g.name = true := by
      obtain ⟨f, hf, hfn⟩ := (mem_names _ _).mp hout
      exact (hasName_iff _ _).mpr ⟨f, hf, by rw [hfn, hgn]⟩
    rw [this] at hgfilt
    simp at hgfilt

/-- Phase of a serving node (ServingPhase). -/
inductive ServingPhase where
  | PREPROCESSING
  | TRAIN_PREDICT
  | POSTPROCESSING
deriving DecidableEq

/-- The per-party processing payload that is threaded through unread. -/
inductive DagContent where
  | identityOf (s : Schema) (nodeName : String)
  | payload (n : Nat)
deriving DecidableEq

/-- Modelled from the spec: the value stored per party by
ServingNode.build_arrow_processing_kwargs (the exported graph fragment:
input schema, output schema and the uninterpreted trace content), which is not
under src/.  The reconciler only reads back the trace_content key. -/
structure ProcessingKwargs where
  input_schema : Schema
  output_schema : Schema
  trace_content : DagContent
deriving DecidableEq

/-- One node of the serving pipeline: a phase plus per-party input schema,
output schema and payload maps (ServingNode). -/
structure ServingNode where
  name : String
  phase : ServingPhase
  input_schemas : List (String × Schema)
  output_schemas : List (String × Schema)
  kwargs : List (String × ProcessingKwargs)
deriving DecidableEq

/-- The shared pipeline builder: the party list and the appended node
sequence (ServingBuilder). -/
structure ServingBuilder where
  pyus : List String
  nodes : List ServingNode
deriving DecidableEq

/-- Modelled from the spec: ServingNode.add (not under src/) updates the
node fragment for one party in place with the given schemas and payload. -/
def ServingNode.add (node : ServingNode) (pyu : String)
    (inS outS : Schema) (kw : ProcessingKwargs) : ServingNode :=
  { node with
    input_schemas := assocSet node.input_schemas pyu inS,
    output_schemas := assocSet node.output_schemas pyu outS,
    kwargs := assocSet node.kwargs pyu kw }

/-- Modelled from the spec: Table.from_schema(trace).dump_serving_pb(name)
(not under src/) produces an identity pass-through fragment whose input
and output schema both equal the given trace schema. -/
def dump_serving_pb (trace : Schema) (nodeName : String) :
    DagContent × Schema × Schema :=
  (.identityOf trace nodeName, trace, trace)

/-- Modelled from the spec: ServingNode.build_arrow_processing_kwargs
(not under src/) bundles the schemas with the carried content. -/
def build_arrow_processing_kwargs (inS outS : Schema) (dag : DagContent) :
    ProcessingKwargs :=
  ⟨inS, outS, dag⟩

/-- The exceptions rebuild_preprocessing_nodes can raise: the two top
assert failures, the two party-gap assert failures, dict KeyError, and the
invalid-columns ValueError. -/
inductive Err where
  | emptyNodes
  | invalidPhase (p : ServingPhase)
  | gapNodeHasOutput
  | gapNodeHasKwargs
  | keyError
  | invalidColumns (cols : List (String × List String))
deriving DecidableEq

/-- Lines 178-187: collect the initial run of PREPROCESSING nodes, stop at
and include the first TRAIN_PREDICT node; any other phase seen before
that is an assertion failure. -/
def collectRun : List ServingNode → Except Err (List ServingNode)
  | [] => .ok []
  | n :: rest =>
    match n.phase with
    | .PREPROCESSING =>
      match collectRun rest with
      | .ok run => .ok (n :: run)
      | .error e => .error e
    | .TRAIN_PREDICT => .ok [n]
    | .POSTPROCESSING => .error (.invalidPhase .POSTPROCESSING)

/-- Lines 197-214, the body of the per-party loop: either synthesize an
identity fragment for a party the node does not know (asserting that the
node is not in a half-populated state), or repair the recorded schemas against
the trace.  Returns the node and trace-schema dict as left when the loop
body finishes or raises. -/
def processPartyStep (node : ServingNode) (ts : List (String × Schema))
    (pyu : String) : ServingNode × List (String × Schema) × Option Err :=
  let trace_schema := (alookup ts pyu).getD []
  match alookup node.input_schemas pyu with
  | none =>
    if (alookup node.output_schemas pyu).isSome then
      (node, ts, some .gapNodeHasOutput)
    else if (alookup node.kwargs pyu).isSome then
      (node, ts, some .gapNodeHasKwargs)
    else
      let r := dump_serving_pb trace_schema node.name
      let kw := build_arrow_processing_kwargs r.2.1 r.2.2 r.1
      (node.add pyu r.2.1 r.2.2 kw, ts, none)
  | some node_in =>
    match alookup node.output_schemas pyu with
    | none => (node, ts, some .keyError)
    | some node_out =>
      let r := rebuild_schema trace_schema node_in node_out
      let ts' := assocSet ts pyu r.1
      match alookup node.kwargs pyu with
      | none => (node, ts', some .keyError)
      | some kw0 =>
        let kw := build_arrow_processing_kwargs r.2.1 r.2.2 kw0.trace_content
        (node.add pyu r.2.1 r.2.2 kw, ts', none)

/-- The loop `for pyu in builder.pyus` over one node. -/
def processNodeParties : List String → ServingNode → List (String × Schema) →
    ServingNode × List (String × Schema) × Option Err
  | [], node, ts => (node, ts, none)
  | p :: ps, node, ts =>
    match processPartyStep node ts p with
    | (node', ts', none) => processNodeParties ps node' ts'
    | (node', ts', some e) => (node', ts', some e)

/-- The loop `for node in reversed(nodes)`: the argument list is the
upstream run already reversed (latest node first); the returned list is in
the same reversed order.  On an error the remaining (earlier) nodes are
returned untouched, matching the in-place state at the raise. -/
def processNodesRev (pyus : List String) :
    List ServingNode → List (String × Schema) →
    List ServingNode × List (String × Schema) × Option Err
  | [], ts => ([], ts, none)
  | n :: rest, ts =>
    match processNodeParties pyus n ts with
    | (n', ts', none) =>
      match processNodesRev pyus rest ts' with
      | (rest', ts'', e) => (n' :: rest', ts'', e)
    | (n', ts', some e) => (n' :: rest, ts', some e)

/-- Lines 221-224: appending one offending column name to the
defaultdict(list) of invalid columns for a party. -/
def addInvalid (acc : List (String × List String)) (p c : String) :
    List (String × List String) :=
  if (alookup acc p).isSome then
    acc.map (fun e => if e.fst = p then (e.fst, e.snd ++ [c]) else e)
  else acc ++ [(p, [c])]

/-- Lines 220-224, the inner loop over one party's final trace schema:
classify each field as used (name in the party's initial columns) or
invalid. -/
def validateParty (initNames : List String) (p : String) :
    Schema → List (String × List String) × List String →
    List (String × List String) × List String
  | [], acc => acc
  | f :: rest, acc =>
    if memStr initNames f.name then
      validateParty initNames p rest (acc.1, acc.2 ++ [f.name])
    else
      validateParty initNames p rest (addInvalid acc.1 p f.name, acc.2)

/-- Lines 218-224, the loop over the final trace schemas; the lookup
init_columns[pyu] raises KeyError when the party has no initial schema. -/
def validateLoop (init : List (String × Schema)) :
    List (String × Schema) →
    List (String × List String) × List String →
    Except Err (List (String × List String) × List String)
  | [], acc => .ok acc
  | e :: rest, acc =>
    match alookup init e.fst with
    | none => .error .keyError
    | some initS =>
      validateLoop init rest (validateParty (Schema.names initS) e.fst e.snd acc)

/-- Lines 216-229: the validation of the final trace schemas against the
initial table schemas; raises the aggregated invalid-columns ValueError
when any party has an untraceable column, otherwise returns the used
column names. -/
def validateTrace (init tf : List (String × Schema)) : Except Err (List String) :=
  match validateLoop init tf ([], []) with
  | .error e => .error e
  | .ok (inv, used) =>
    if inv.isEmpty then .ok used else .error (.invalidColumns inv)

/--
ModelExport.rebuild_preprocessing_nodes (lines 167-229).

The Python version mutates builder.nodes in place and either returns the
used-column list or raises; the model therefore returns the builder state
at exit together with the result.  The trace-schema dict is seeded from a
deep copy of the last run node's input schemas; that node itself and every
node after it are left untouched.
-/
def rebuild_preprocessing_nodes (builder : ServingBuilder)
    (init_schemas : List (String × Schema)) :
    ServingBuilder × Except Err (List String) :=
  match builder.nodes with
  | [] => (builder, .error .emptyNodes)
  | first :: _ =>
    if first.phase = .PREPROCESSING ∨ first.phase = .TRAIN_PREDICT then
      match collectRun builder.nodes with
      | .error e => (builder, .error e)
      | .ok run =>
        match run.getLast? with
        | none => (builder, .ok [])
        | some last_node =>
          let r := processNodesRev builder.pyus run.dropLast.reverse
            last_node.input_schemas
          let b' : ServingBuilder :=
            { builder with
              nodes := r.1.reverse ++ last_node :: builder.nodes.drop run.length }
          match r.2.2 with
          | some e => (b', .error e)
          | none =>
            match validateTrace init_schemas r.2.1 with
            | .error e => (b', .error e)
            | .ok used => (b', .ok used)
    else (builder, .ok [])

theorem alookup_map_set {α : Type} (m : List (String × α)) (k : String) (v : α)
    (h : (alookup m k).isSome = true) :
    alookup (m.map (fun e => if e.fst = k then (k, v) else e)) k = some v := by
  induction m with
  | nil => simp [alookup] at h
  | cons e rest ih =>
    by_cases he : e.fst = k
    · simp [alookup, he]
    · simp only [alookup, he, if_false] at h
      simp [alookup, he, ih h]

theorem alookup_append_one {α : Type} (m : List (String × α)) (k : String) (v : α) :
    alookup (m ++ [(k, v)]) k = some ((alookup m k).getD v) := by
  induction m with
  | nil => simp [alookup]
  | cons e rest ih =>
    by_cases he : e.fst = k
    · simp [alookup, he]
    · simp [alookup, he, ih]

theorem alookup_assocSet_self {α : Type} (m : List (String × α)) (k : String) (v : α) :
    alookup (assocSet m k v) k = some v := by
  unfold assocSet
  by_cases h : (alookup m k).isSome = true
  · rw [if_pos h]
    exact alookup_map_set m k v h
  · rw [if_neg h]
    have hnone : alookup m k = none := Option.not_isSome_iff_eq_none.mp h
    rw [alookup_append_one, hnone]
    rfl

theorem alookup_map_set_ne {α : Type} (m : List (String × α)) (k q : String)
    (v : α) (hne : q ≠ k) :
    alookup (m.map (fun e => if e.fst = k then (k, v) else e)) q = alookup m q := by
  induction m with
  | nil => rfl
  | cons e rest ih =>
    by_cases he : e.fst = k
    · have h2 : ¬ (k = q) := fun hh => hne hh.symm
      have h3 : ¬ (e.fst = q) := by rw [he]; exact h2
      simp [alookup, he, h2, h3, ih]
    · simp [alookup, he, ih]

theorem alookup_assocSet_ne {α : Type} (m : List (String × α)) {k q : String}
    (v : α) (hne : q ≠ k) : alookup (assocSet m k v) q = alookup m q := by
  unfold assocSet
  by_cases h : (alookup m k).isSome = true
  · rw [if_pos h]
    exact alookup_map_set_ne m k q v hne
  · rw [if_neg h]
    induction m with
    | nil =>
      have hkq : ¬ (k = q) := fun hh => hne hh.symm
      simp [alookup, hkq]
    | cons e rest ih =>
      simp only [alookup, List.cons_append]
      by_cases hq : e.fst = q
      · simp [hq]
      · simp only [hq, if_false]
        simp only [alookup, hq, if_false] at *
        by_cases he : e.fst = k
        · simp only [alookup, he, if_pos] at h
          simp at h
        · simp only [alookup, he, if_false] at h
          exact ih h

theorem alookup_assocSet_isSome {α : Type} (m : List (String × α)) (k q : String)
    (v : α) (h : (alookup m q).isSome = true) :
    (alookup (assocSet m k v) q).isSome = true := by
  by_cases hq : q = k
  · subst hq; rw [alookup_assocSet_self]; rfl
  · rw [alookup_assocSet_ne m v hq]; exact h

/-- Claim C8: when a node records no input schema for a party, the loop
body asserts that it records no output schema and no payload either, and
on success installs an identity fragment whose input and output schema
both equal that party's current trace schema, leaving the trace-schema
dict unchanged. -/
theorem rebuild_party_gap (node : ServingNode) (ts : List (String × Schema))
    (pyu : String) (hin : alookup node.input_schemas pyu = none) :
    ((alookup node.output_schemas pyu).isSome = true ∨
        (alookup node.kwargs pyu).isSome = true →
      ∃ e, (processPartyStep node ts pyu).2.2 = some e) ∧
    (alookup node.output_schemas pyu = none → alookup node.kwargs pyu = none →
      ∃ node', processPartyStep node ts pyu = (node', ts, none) ∧
        alookup node'.input_schemas pyu = some ((alookup ts pyu).getD []) ∧
        alookup node'.output_schemas pyu = some ((alookup ts pyu).getD [])) := by
  constructor
  · intro hOr
    by_cases ho : (alookup node.output_schemas pyu).isSome = true
    · exact ⟨.gapNodeHasOutput, by simp [processPartyStep, hin, ho]⟩
    · have hk : (alookup node.kwargs pyu).isSome = true := by
        rcases hOr with h | h
        · exact absurd h ho
        · exact h
      exact ⟨.gapNodeHasKwargs, by simp [processPartyStep, hin, ho, hk]⟩
  · intro ho hk
    have hstep : processPartyStep node ts pyu =
        (ServingNode.add node pyu ((alookup ts pyu).getD [])
          ((alookup ts pyu).getD [])
          (build_arrow_processing_kwargs ((alookup ts pyu).getD [])
            ((alookup ts pyu).getD [])
            (DagContent.identityOf ((alookup ts pyu).getD []) node.name)),
         ts, none) := by
      simp [processPartyStep, hin, ho, hk, dump_serving_pb,
        build_arrow_processing_kwargs]
    refine ⟨_, hstep, ?_, ?_⟩
    · exact alookup_assocSet_self node.input_schemas pyu _
    · exact alookup_assocSet_self node.output_schemas pyu _

def gapNodeEx : ServingNode :=
  { name := "n", phase := .PREPROCESSING,
    input_schemas := [], output_schemas := [], kwargs := [] }

def gapTsEx : List (String × Schema) := [("alice", [⟨"age", "int64"⟩])]

theorem rebuild_party_gap_witness :
    ∃ node', processPartyStep gapNodeEx gapTsEx "alice" = (node', gapTsEx, none) ∧
      alookup node'.input_schemas "alice" =
        some ((alookup gapTsEx "alice").getD []) ∧
      alookup node'.output_schemas "alice" =
        some ((alookup gapTsEx "alice").getD []) :=
  (rebuild_party_gap gapNodeEx gapTsEx "alice" rfl).2 rfl rfl

theorem validateParty_used (initNames : List String) (p : String) :
    ∀ (s : Schema) (acc : List (String × List String) × List String)
      (n : String), n ∈ (validateParty initNames p s acc).2 →
      n ∈ acc.2 ∨ ((∃ f ∈ s, PaField.name f = n) ∧ memStr initNames n = true) := by
  intro s
  induction s with
  | nil => intro acc n h; exact Or.inl h
  | cons f rest ih =>
    intro acc n h
    by_cases hm : memStr initNames f.name = true
    · simp [validateParty, hm] at h
      rcases ih _ n h with hmem | ⟨⟨g, hg, hgn⟩, hms⟩
      · rcases List.mem_append.mp hmem with ha | hb
        · exact Or.inl ha
        · right
          have hn : n = f.name := List.mem_singleton.mp hb
          exact ⟨⟨f, List.mem_cons_self _ _, hn.symm⟩, hn ▸ hm⟩
      · exact Or.inr ⟨⟨g, List.mem_cons_of_mem _ hg, hgn⟩, hms⟩
    · simp [validateParty, hm] at h
      rcases ih (addInvalid acc.1 p f.name, acc.2) n h with hmem | ⟨⟨g, hg, hgn⟩, hms⟩
      · exact Or.inl hmem
      · exact Or.inr ⟨⟨g, List.mem_cons_of_mem _ hg, hgn⟩, hms⟩

theorem validateLoop_used (init : List (String × Schema)) :
    ∀ (tf : List (String × Schema))
      (acc : List (String × List String) × List String)
      (inv : List (String × List String)) (used : List String),
      validateLoop init tf acc = .ok (inv, used) →
      ∀ n ∈ used, n ∈ acc.2 ∨
        ∃ p s, (p, s) ∈ tf ∧ (∃ f ∈ s, PaField.name f = n) ∧
          ∃ initS, alookup init p = some initS ∧
            memStr (Schema.names initS) n = true := by
  intro tf
  induction tf with
  | nil =>
    intro acc inv used h n hn
    simp only [validateLoop, Except.ok.injEq] at h
    left
    rw [h]
    exact hn
  | cons e rest ih =>
    intro acc inv used h n hn
    simp only [validateLoop] at h
    cases hl : alookup init e.fst with
    | none => rw [hl] at h; simp at h
    | some initS =>
      rw [hl] at h
      rcases ih _ _ _ h n hn with hmem | ⟨p, s, hps, hfs, hinit⟩
      · rcases validateParty_used (Schema.names initS) e.fst e.snd acc n hmem
          with hacc | ⟨hfs, hms⟩
        · exact Or.inl hacc
        · refine Or.inr ⟨e.fst, e.snd, ?_, hfs, initS, hl, hms⟩
          rw [Prod.mk.eta]
          exact List.mem_cons_self _ _
      · exact Or.inr ⟨p, s, List.mem_cons_of_mem _ hps, hfs, hinit⟩

theorem validateTrace_used (init tf : List (String × Schema)) (used : List String)
    (h : validateTrace init tf = .ok used) :
    ∀ n ∈ used, ∃ p s, (p, s) ∈ tf ∧ n ∈ Schema.names s ∧
      ∃ initS, alookup init p = some initS ∧
        memStr (Schema.names initS) n = true := by
  intro n hn
  unfold validateTrace at h
  cases hl : validateLoop init tf ([], []) with
  | error e => rw [hl] at h; simp at h
  | ok pr =>
    obtain ⟨inv, used0⟩ := pr
    rw [hl] at h
    by_cases hi : inv.isEmpty = true
    · simp only [hi, if_true, Except.ok.injEq] at h
      subst h
      rcases validateLoop_used init tf ([], []) inv used0 hl n hn with hc | hc
      · cases hc
      · obtain ⟨p, s, hps, hfs, hinit⟩ := hc
        exact ⟨p, s, hps, (mem_names s n).mpr hfs, hinit⟩
    · simp only [hi, if_false] at h
      simp at h

/-- Claim C1: for a pipeline whose first node is PREPROCESSING or
TRAIN_PREDICT, every name in a normally returned used-columns list is
contributed by an entry of the final trace-schema dict computed by the
backward pass over the collected run, and occurs in the initial table
schema of that same party: the name lies in that party's final trace
schema and in that party's initial schema. -/
theorem rebuild_used_columns_traceable (builder : ServingBuilder)
    (init_schemas : List (String × Schema)) (first : ServingNode)
    (hfirst : builder.nodes.head? = some first)
    (hphase : first.phase = .PREPROCESSING ∨ first.phase = .TRAIN_PREDICT)
    (b' : ServingBuilder) (used : List String)
    (h : rebuild_preprocessing_nodes builder init_schemas = (b', .ok used)) :
    ∀ n ∈ used, ∃ run last,
      collectRun builder.nodes = .ok run ∧
      run.getLast? = some last ∧
      ∃ p s, (p, s) ∈ (processNodesRev builder.pyus run.dropLast.reverse
          last.input_schemas).2.1 ∧
        n ∈ Schema.names s ∧
        ∃ initS, alookup init_schemas p = some initS ∧
          memStr (Schema.names initS) n = true := by
  intro n hn
  unfold rebuild_preprocessing_nodes at h
  split at h
  · simp at h
  · split at h
    · split at h
      · simp at h
      · rename_i run heqcr
        split at h
        · have hemp : used = [] := by
            simp at h
            exact h.2
          subst hemp
          cases hn
        · rename_i last heqlast
          dsimp only [] at h
          split at h
          · simp at h
          · split at h
            · simp at h
            · rename_i u hv
              have hused : used = u := by
                simp at h
                exact h.2.symm
              exact ⟨run, last, heqcr, heqlast,
                validateTrace_used _ _ _ hv n (hused ▸ hn)⟩
    · have hemp : used = [] := by
        simp at h
        exact h.2
      subst hemp
      cases hn

def fX : PaField := ⟨"x", "int64"⟩

def tpNodeEx : ServingNode :=
  { name := "tp", phase := .TRAIN_PREDICT,
    input_schemas := [("bob", [fX])],
    output_schemas := [("bob", [])],
    kwargs := [("bob", ⟨[fX], [], .payload 2⟩)] }

def builderTPEx : ServingBuilder := ⟨["bob"], [tpNodeEx]⟩

def initBobEx : List (String × Schema) := [("bob", [fX])]

theorem rebuild_used_columns_traceable_witness :
    ∃ run last,
      collectRun builderTPEx.nodes = .ok run ∧
      run.getLast? = some last ∧
      ∃ p s, (p, s) ∈ (processNodesRev builderTPEx.pyus run.dropLast.reverse
          last.input_schemas).2.1 ∧
        "x" ∈ Schema.names s ∧
        ∃ initS, alookup initBobEx p = some initS ∧
          memStr (Schema.names initS) "x" = true :=
  rebuild_used_columns_traceable builderTPEx initBobEx tpNodeEx rfl (Or.inr rfl)
    builderTPEx ["x"] (by rfl) "x" (by simp)

/-- Counterexample to claim C2 as stated: a pipeline whose only node is a
TRAIN_PREDICT node with a nonempty recorded input schema returns that
schema's matching names as used columns, not the empty list. -/
theorem rebuild_tp_only_cex :
    (rebuild_preprocessing_nodes builderTPEx initBobEx).2 = .ok ["x"] ∧
    (["x"] : List String) ≠ [] :=
  ⟨rfl, by simp⟩

/-- Claim C2 (amended): for every pipeline whose first node is a
TRAIN_PREDICT node (zero preprocessing-phase nodes), the builder — hence
every node schema — is left untouched, and the result is exactly the
validation of that node's recorded per-party input schemas against the
initial schemas: the used-columns list is empty when the node records
empty input schemas, and in general the call returns that node's
traceable input names or raises the invalid-columns error. -/
theorem rebuild_tp_only_amended (builder : ServingBuilder)
    (init_schemas : List (String × Schema)) (node : ServingNode)
    (rest : List ServingNode)
    (hnodes : builder.nodes = node :: rest)
    (hph : node.phase = .TRAIN_PREDICT) :
    rebuild_preprocessing_nodes builder init_schemas =
      (builder, validateTrace init_schemas node.input_schemas) := by
  obtain ⟨pyus, nodes⟩ := builder
  simp only at hnodes
  subst hnodes
  unfold rebuild_preprocessing_nodes
  simp only [hph, collectRun, processNodesRev]
  cases hv : validateTrace init_schemas node.input_schemas <;> simp [hv]

def tpEmptyNodeEx : ServingNode :=
  { name := "tp0", phase := .TRAIN_PREDICT,
    input_schemas := [], output_schemas := [], kwargs := [] }

def builderTPEmptyEx : ServingBuilder := ⟨["bob"], [tpEmptyNodeEx]⟩

theorem rebuild_tp_only_amended_witness :
    rebuild_preprocessing_nodes builderTPEx initBobEx =
      (builderTPEx, validateTrace initBobEx tpNodeEx.input_schemas) ∧
    rebuild_preprocessing_nodes builderTPEmptyEx initBobEx =
      (builderTPEmptyEx, .ok []) :=
  ⟨rebuild_tp_only_amended builderTPEx initBobEx tpNodeEx [] rfl rfl,
   by rw [rebuild_tp_only_amended builderTPEmptyEx initBobEx tpEmptyNodeEx []
        rfl rfl]; rfl⟩

def preAfterNodeEx : ServingNode :=
  { name := "pre2", phase := .PREPROCESSING,
    input_schemas := [("bob", [fX])],
    output_schemas := [("bob", [fX])],
    kwargs := [("bob", ⟨[fX], [fX], .payload 3⟩)] }

def builderTPpreEx : ServingBuilder := ⟨["bob"], [tpNodeEx, preAfterNodeEx]⟩

/-- Counterexample to claim C3 as stated: a PREPROCESSING node that sits
after the first TRAIN_PREDICT node is never inspected, so the call
returns normally instead of raising an assertion error. -/
theorem rebuild_phase_after_tp_cex :
    (rebuild_preprocessing_nodes builderTPpreEx initBobEx).2 = .ok ["x"] :=
  rfl

/-- Claim C3 (amended): the assertion-level phase error fires exactly for
a node of a phase other than PREPROCESSING and TRAIN_PREDICT (that is,
POSTPROCESSING) encountered after one or more PREPROCESSING nodes and
before any TRAIN_PREDICT node; the builder is still untouched then. -/
theorem rebuild_bad_phase_amended (builder : ServingBuilder)
    (init_schemas : List (String × Schema)) (pres : List ServingNode)
    (post : ServingNode) (rest : List ServingNode)
    (hnodes : builder.nodes = pres ++ post :: rest)
    (hne : pres ≠ [])
    (hpre : ∀ m ∈ pres, m.phase = .PREPROCESSING)
    (hpost : post.phase = .POSTPROCESSING) :
    rebuild_preprocessing_nodes builder init_schemas =
      (builder, .error (.invalidPhase .POSTPROCESSING)) := by
  have hcr : ∀ (ps : List ServingNode), (∀ m ∈ ps, m.phase = .PREPROCESSING) →
      collectRun (ps ++ post :: rest) =
        .error (.invalidPhase .POSTPROCESSING) := by
    intro ps
    induction ps with
    | nil => intro _; simp [collectRun, hpost]
    | cons a l ih =>
      intro hp
      have ha := hp a (by simp)
      have hl : ∀ m ∈ l, m.phase = .PREPROCESSING :=
        fun m hm => hp m (by simp [hm])
      simp [collectRun, ha, ih hl]
  obtain ⟨a, l, rfl⟩ : ∃ a l, pres = a :: l := by
    cases pres with
    | nil => exact absurd rfl hne
    | cons a l => exact ⟨a, l, rfl⟩
  obtain ⟨pyus, nodes⟩ := builder
  simp only at hnodes
  subst hnodes
  have ha : a.phase = .PREPROCESSING := hpre a (by simp)
  have hcr2 := hcr (a :: l) hpre
  rw [List.cons_append] at hcr2
  unfold rebuild_preprocessing_nodes
  simp [ha, hcr2]

def postNodeEx : ServingNode :=
  { name := "post", phase := .POSTPROCESSING,
    input_schemas := [], output_schemas := [], kwargs := [] }

def preNodeEx : ServingNode :=
  { name := "pre", phase := .PREPROCESSING,
    input_schemas := [("bob", [fX])],
    output_schemas := [("bob", [fX])],
    kwargs := [("bob", ⟨[fX], [fX], .payload 1⟩)] }

def builderPrePostEx : ServingBuilder := ⟨["bob"], [preNodeEx, postNodeEx]⟩

theorem rebuild_bad_phase_amended_witness :
    rebuild_preprocessing_nodes builderPrePostEx initBobEx =
      (builderPrePostEx, .error (.invalidPhase .POSTPROCESSING)) :=
  rebuild_bad_phase_amended builderPrePostEx initBobEx [preNodeEx] postNodeEx []
    rfl (by simp) (by intro m hm; rw [List.mem_singleton.mp hm]; rfl) rfl

def fB : PaField := ⟨"b", "int64"⟩

theorem rebuild_schema_drops_manufactured_witness :
    Schema.hasName (rebuild_schema [fX] [fX] [fB]).1 "b" = false :=
  rebuild_schema_drops_manufactured [fX] [fX] [fB] "b" (by decide) (by decide)

theorem rebuild_schema_adds_consumed_witness :
    fX ∈ (rebuild_schema [] [fX] []).1 :=
  rebuild_schema_adds_consumed [] [fX] [] fX (by simp) (by decide)

theorem rebuild_schema_nodup_witness :
    (Schema.names (rebuild_schema [fX] [fX] [fX]).1).Nodup ∧
    (Schema.names (rebuild_schema [fX] [fX] [fX]).2.1).Nodup ∧
    (Schema.names (rebuild_schema [fX] [fX] [fX]).2.2).Nodup :=
  rebuild_schema_nodup [fX] [fX] [fX] (by decide) (by decide) (by decide)

theorem validateParty_all_ok (initNames : List String) (p : String) :
    ∀ (s : Schema) (acc : List (String × List String) × List String),
      (∀ f ∈ s, memStr initNames f.name = true) →
      (validateParty initNames p s acc).1 = acc.1 := by
  intro s
  induction s with
  | nil => intro acc _; rfl
  | cons f rest ih =>
    intro acc hall
    have hf := hall f (by simp)
    simp only [validateParty, hf, if_true]
    exact ih (acc.1, acc.2 ++ [f.name]) (fun g hg => hall g (by simp [hg]))

theorem validateLoop_all_ok (init : List (String × Schema)) :
    ∀ (tf : List (String × Schema))
      (acc : List (String × List String) × List String),
      (∀ p s, (p, s) ∈ tf → ∃ initS, alookup init p = some initS ∧
          ∀ f ∈ s, memStr (Schema.names initS) f.name = true) →
      ∃ u, validateLoop init tf acc = .ok (acc.1, u) := by
  intro tf
  induction tf with
  | nil => intro acc _; exact ⟨acc.2, by simp [validateLoop]⟩
  | cons e rest ih =>
    intro acc hall
    obtain ⟨initS, hlook, hfields⟩ := hall e.fst e.snd
      (by rw [Prod.mk.eta]; exact List.mem_cons_self _ _)
    have hp1 : (validateParty (Schema.names initS) e.fst e.snd acc).1 = acc.1 :=
      validateParty_all_ok _ _ _ _ hfields
    obtain ⟨u, hu⟩ := ih (validateParty (Schema.names initS) e.fst e.snd acc)
      (fun p s hps => hall p s (List.mem_cons_of_mem _ hps))
    rw [hp1] at hu
    refine ⟨u, ?_⟩
    simp only [validateLoop, hlook]
    exact hu

theorem mem_map_addInvalid (acc : List (String × List String)) (p c : String)
    (h : (alookup acc p).isSome = true) :
    ∃ l, (p, l) ∈ acc.map (fun e => if e.fst = p then (e.fst, e.snd ++ [c]) else e) ∧
      c ∈ l := by
  induction acc with
  | nil => simp [alookup] at h
  | cons e rest ih =>
    by_cases he : e.fst = p
    · exact ⟨e.snd ++ [c], by simp [he], by simp⟩
    · simp only [alookup, he, if_false] at h
      obtain ⟨l, hl, hc⟩ := ih h
      refine ⟨l, ?_, hc⟩
      simp only [List.map_cons, he, if_false]
      exact List.mem_cons_of_mem _ hl

theorem addInvalid_self_mem (acc : List (String × List String)) (p c : String) :
    ∃ l, (p, l) ∈ addInvalid acc p c ∧ c ∈ l := by
  unfold addInvalid
  by_cases h : (alookup acc p).isSome = true
  · rw [if_pos h]
    exact mem_map_addInvalid acc p c h
  · rw [if_neg h]
    exact ⟨[c], List.mem_append_right _ (by simp), by simp⟩

theorem addInvalid_mono (acc : List (String × List String)) (p c q : String)
    (l : List String) (x : String) (hm : (q, l) ∈ acc) (hx : x ∈ l) :
    ∃ l2, (q, l2) ∈ addInvalid acc p c ∧ x ∈ l2 := by
  unfold addInvalid
  by_cases h : (alookup acc p).isSome = true
  · rw [if_pos h]
    by_cases hq : q = p
    · subst hq
      exact ⟨l ++ [c], List.mem_map.mpr ⟨(q, l), hm, by simp⟩,
        List.mem_append_left _ hx⟩
    · exact ⟨l, List.mem_map.mpr ⟨(q, l), hm, by simp [hq]⟩, hx⟩
  · rw [if_neg h]
    exact ⟨l, List.mem_append_left _ hm, hx⟩

theorem validateParty_mono (initNames : List String) (p : String) :
    ∀ (s : Schema) (acc : List (String × List String) × List String)
      (q : String) (l : List String) (x : String),
      (q, l) ∈ acc.1 → x ∈ l →
      ∃ l2, (q, l2) ∈ (validateParty initNames p s acc).1 ∧ x ∈ l2 := by
  intro s
  induction s with
  | nil => intro acc q l x hm hx; exact ⟨l, hm, hx⟩
  | cons f rest ih =>
    intro acc q l x hm hx
    by_cases hmem : memStr initNames f.name = true
    · simp only [validateParty, hmem, if_true]
      exact ih (acc.1, acc.2 ++ [f.name]) q l x hm hx
    · simp [validateParty, hmem]
      obtain ⟨l2, hm2, hx2⟩ := addInvalid_mono acc.1 p f.name q l x hm hx
      exact ih (addInvalid acc.1 p f.name, acc.2) q l2 x hm2 hx2

theorem validateParty_complete (initNames : List String) (p : String) :
    ∀ (s : Schema) (acc : List (String × List String) × List String)
      (f : PaField), f ∈ s → memStr initNames f.name = false →
      ∃ l, (p, l) ∈ (validateParty initNames p s acc).1 ∧ f.name ∈ l := by
  intro s
  induction s with
  | nil => intro acc f hf _; cases hf
  | cons g rest ih =>
    intro acc f hf hns
    rcases List.mem_cons.mp hf with heq | hfr
    · subst heq
      simp [validateParty, hns]
      obtain ⟨l, hl, hc⟩ := addInvalid_self_mem acc.1 p f.name
      exact validateParty_mono initNames p rest
        (addInvalid acc.1 p f.name, acc.2) p l f.name hl hc
    · by_cases hg : memStr initNames g.name = true
      · simp only [validateParty, hg, if_true]
        exact ih (acc.1, acc.2 ++ [g.name]) f hfr hns
      · simp [validateParty, hg]
        exact ih (addInvalid acc.1 p g.name, acc.2) f hfr hns

theorem validateLoop_mono (init : List (String × Schema)) :
    ∀ (tf : List (String × Schema))
      (acc : List (String × List String) × List String)
      (inv : List (String × List String)) (used : List String)
      (q : String) (l : List String) (x : String),
      validateLoop init tf acc = .ok (inv, used) → (q, l) ∈ acc.1 → x ∈ l →
      ∃ l2, (q, l2) ∈ inv ∧ x ∈ l2 := by
  intro tf
  induction tf with
  | nil =>
    intro acc inv used q l x h hm hx
    simp only [validateLoop, Except.ok.injEq] at h
    subst h
    exact ⟨l, hm, hx⟩
  | cons e rest ih =>
    intro acc inv used q l x h hm hx
    simp only [validateLoop] at h
    cases hl : alookup init e.fst with
    | none => rw [hl] at h; simp at h
    | some initS =>
      rw [hl] at h
      obtain ⟨l2, hm2, hx2⟩ :=
        validateParty_mono (Schema.names initS) e.fst e.snd acc q l x hm hx
      exact ih _ inv used q l2 x h hm2 hx2

theorem validateLoop_complete (init : List (String × Schema)) :
    ∀ (tf : List (String × Schema))
      (acc : List (String × List String) × List String)
      (inv : List (String × List String)) (used : List String)
      (p : String) (s : Schema) (f : PaField) (initS : Schema),
      validateLoop init tf acc = .ok (inv, used) → (p, s) ∈ tf → f ∈ s →
      alookup init p = some initS →
      memStr (Schema.names initS) f.name = false →
      ∃ l, (p, l) ∈ inv ∧ f.name ∈ l := by
  intro tf
  induction tf with
  | nil => intro acc inv used p s f initS h hmem hf hlook hns; cases hmem
  | cons e rest ih =>
    intro acc inv used p s f initS h hmem hf hlook hns
    simp only [validateLoop] at h
    cases hl : alookup init e.fst with
    | none => rw [hl] at h; simp at h
    | some initS0 =>
      rw [hl] at h
      rcases List.mem_cons.mp hmem with heq | hmr
      · have he : e = (p, s) := heq.symm
        subst he
        have hS : initS0 = initS := by
          rw [hl] at hlook
          exact Option.some.inj hlook
        subst hS
        obtain ⟨l, hlm, hc⟩ :=
          validateParty_complete (Schema.names initS0) p s acc f hf hns
        exact validateLoop_mono init rest _ inv used p l f.name h hlm hc
      · exact ih _ inv used p s f initS h hmr hf hlook hns

theorem validateLoop_ok_of_keys (init : List (String × Schema)) :
    ∀ (tf : List (String × Schema))
      (acc : List (String × List String) × List String),
      (∀ p s, (p, s) ∈ tf → (alookup init p).isSome = true) →
      ∃ inv used, validateLoop init tf acc = .ok (inv, used) := by
  intro tf
  induction tf with
  | nil => intro acc _; exact ⟨acc.1, acc.2, by simp [validateLoop]⟩
  | cons e rest ih =>
    intro acc hk
    have hsome : (alookup init e.fst).isSome = true :=
      hk e.fst e.snd (by rw [Prod.mk.eta]; exact List.mem_cons_self _ _)
    obtain ⟨initS, hinitS⟩ := Option.isSome_iff_exists.mp hsome
    obtain ⟨inv, used, hrest⟩ :=
      ih (validateParty (Schema.names initS) e.fst e.snd acc)
        (fun p s hps => hk p s (List.mem_cons_of_mem _ hps))
    refine ⟨inv, used, ?_⟩
    simp only [validateLoop, hinitS]
    exact hrest

theorem validateLoop_error_keyError (init : List (String × Schema)) :
    ∀ (tf : List (String × Schema))
      (acc : List (String × List String) × List String) (e : Err),
      validateLoop init tf acc = .error e → e = .keyError := by
  intro tf
  induction tf with
  | nil => intro acc e h; simp [validateLoop] at h
  | cons x rest ih =>
    intro acc e h
    simp only [validateLoop] at h
    cases hl : alookup init x.fst with
    | none =>
      rw [hl] at h
      simp only [Except.error.injEq] at h
      exact h.symm
    | some initS =>
      rw [hl] at h
      exact ih _ e h

/-- Claim C4: the column-traceability check returns normally when every
final trace field is traceable to its party's initial schema; and
whenever some party's final trace contains a field whose name is absent
from that party's initial schema (all trace parties having an initial
schema, so no KeyError preempts), the check is forced to raise the single
invalid-columns error, whose payload lists every offending party together
with every one of that party's offending column names, not just the first
one found.  (validateTrace is the embedding of the validation block,
lines 216-227 of rebuild_preprocessing_nodes.) -/
theorem validate_aggregates_all (init tf : List (String × Schema)) :
    ((∀ p s, (p, s) ∈ tf → ∃ initS, alookup init p = some initS ∧
        ∀ f ∈ s, memStr (Schema.names initS) f.name = true) →
      ∃ used, validateTrace init tf = .ok used) ∧
    ((∀ p s, (p, s) ∈ tf → (alookup init p).isSome = true) →
      (∃ p s f initS, (p, s) ∈ tf ∧ f ∈ s ∧ alookup init p = some initS ∧
        memStr (Schema.names initS) f.name = false) →
      ∃ cols, validateTrace init tf = .error (.invalidColumns cols) ∧
        ∀ p s f initS, (p, s) ∈ tf → f ∈ s → alookup init p = some initS →
          memStr (Schema.names initS) f.name = false →
          ∃ l, (p, l) ∈ cols ∧ f.name ∈ l) := by
  constructor
  · intro hall
    obtain ⟨u, hu⟩ := validateLoop_all_ok init tf ([], []) hall
    refine ⟨u, ?_⟩
    unfold validateTrace
    rw [hu]
    rfl
  · intro hkeys hex
    obtain ⟨inv, used, hl⟩ := validateLoop_ok_of_keys init tf ([], []) hkeys
    obtain ⟨p0, s0, f0, initS0, hmem0, hf0, hlook0, hns0⟩ := hex
    obtain ⟨l0, hl0, -⟩ := validateLoop_complete init tf ([], []) inv used
      p0 s0 f0 initS0 hl hmem0 hf0 hlook0 hns0
    have hne : inv ≠ [] := by
      intro hemp
      rw [hemp] at hl0
      cases hl0
    have hie : inv.isEmpty = false := by
      cases inv with
      | nil => exact absurd rfl hne
      | cons a t => rfl
    refine ⟨inv, ?_, ?_⟩
    · unfold validateTrace
      rw [hl]
      simp [hie]
    · intro p s f initS hmem hf hlook hns
      exact validateLoop_complete init tf ([], []) inv used p s f initS
        hl hmem hf hlook hns

def fA : PaField := ⟨"a", "int64"⟩
def fYs : PaField := ⟨"y", "int64"⟩
def fZ : PaField := ⟨"z", "int64"⟩

def init4Ex : List (String × Schema) := [("alice", [fA]), ("bob", [fX])]
def tf4Ex : List (String × Schema) := [("alice", [fYs]), ("bob", [fZ])]
def cols4Ex : List (String × List String) := [("alice", ["y"]), ("bob", ["z"])]

theorem validate_aggregates_all_witness :
    ∃ cols, validateTrace init4Ex tf4Ex = .error (.invalidColumns cols) ∧
      ∀ p s f initS, (p, s) ∈ tf4Ex → f ∈ s → alookup init4Ex p = some initS →
        memStr (Schema.names initS) f.name = false →
        ∃ l, (p, l) ∈ cols ∧ f.name ∈ l :=
  (validate_aggregates_all init4Ex tf4Ex).2
    (by
      intro p s hmem
      rcases List.mem_cons.mp hmem with h1 | h1
      · have hp : p = "alice" := congrArg Prod.fst h1
        rw [hp]; rfl
      · rcases List.mem_cons.mp h1 with h2 | h2
        · have hp : p = "bob" := congrArg Prod.fst h2
          rw [hp]; rfl
        · cases h2)
    ⟨"alice", [fYs], fYs, [fA], by decide, by decide, rfl, by decide⟩

theorem processPartyStep_preserves (node : ServingNode)
    (ts : List (String × Schema)) (pyu q : String) :
    ((alookup node.input_schemas q).isSome = true →
      (alookup (processPartyStep node ts pyu).1.input_schemas q).isSome = true) ∧
    ((alookup node.output_schemas q).isSome = true →
      (alookup (processPartyStep node ts pyu).1.output_schemas q).isSome = true) ∧
    ((alookup node.kwargs q).isSome = true →
      (alookup (processPartyStep node ts pyu).1.kwargs q).isSome = true) := by
  refine ⟨?_, ?_, ?_⟩ <;>
    (intro hq
     unfold processPartyStep
     split
     · split
       · exact hq
       · split
         · exact hq
         · exact alookup_assocSet_isSome _ _ _ _ hq
     · split
       · exact hq
       · split
         · exact hq
         · exact alookup_assocSet_isSome _ _ _ _ hq)

theorem processPartyStep_installs (node : ServingNode)
    (ts : List (String × Schema)) (pyu : String)
    (h : (processPartyStep node ts pyu).2.2 = none) :
    (alookup (processPartyStep node ts pyu).1.input_schemas pyu).isSome = true ∧
    (alookup (processPartyStep node ts pyu).1.output_schemas pyu).isSome = true ∧
    (alookup (processPartyStep node ts pyu).1.kwargs pyu).isSome = true := by
  cases hin : alookup node.input_schemas pyu with
  | none =>
    by_cases ho : (alookup node.output_schemas pyu).isSome = true
    · exfalso; simp [processPartyStep, hin, ho] at h
    · by_cases hk : (alookup node.kwargs pyu).isSome = true
      · exfalso; simp [processPartyStep, hin, ho, hk] at h
      · simp [processPartyStep, hin, ho, hk, ServingNode.add,
          alookup_assocSet_self]
  | some nin =>
    cases hout : alookup node.output_schemas pyu with
    | none => exfalso; simp [processPartyStep, hin, hout] at h
    | some nout =>
      cases hkw : alookup node.kwargs pyu with
      | none => exfalso; simp [processPartyStep, hin, hout, hkw] at h
      | some kw0 =>
        simp [processPartyStep, hin, hout, hkw, ServingNode.add,
          alookup_assocSet_self]

theorem processPartyStep_err (node : ServingNode) (ts : List (String × Schema))
    (pyu : String) (e : Err)
    (h : (processPartyStep node ts pyu).2.2 = some e) :
    e = .gapNodeHasOutput ∨ e = .gapNodeHasKwargs ∨ e = .keyError := by
  cases hin : alookup node.input_schemas pyu with
  | none =>
    by_cases ho : (alookup node.output_schemas pyu).isSome = true
    · simp [processPartyStep, hin, ho] at h
      exact Or.inl h.symm
    · by_cases hk : (alookup node.kwargs pyu).isSome = true
      · simp [processPartyStep, hin, ho, hk] at h
        exact Or.inr (Or.inl h.symm)
      · simp [processPartyStep, hin, ho, hk] at h
  | some nin =>
    cases hout : alookup node.output_schemas pyu with
    | none =>
      simp [processPartyStep, hin, hout] at h
      exact Or.inr (Or.inr h.symm)
    | some nout =>
      cases hkw : alookup node.kwargs pyu with
      | none =>
        simp [processPartyStep, hin, hout, hkw] at h
        exact Or.inr (Or.inr h.symm)
      | some kw0 =>
        simp [processPartyStep, hin, hout, hkw] at h

theorem processNodeParties_preserves (q : String) :
    ∀ (pyus : List String) (node : ServingNode) (ts : List (String × Schema)),
    ((alookup node.input_schemas q).isSome = true →
      (alookup (processNodeParties pyus node ts).1.input_schemas q).isSome = true) ∧
    ((alookup node.output_schemas q).isSome = true →
      (alookup (processNodeParties pyus node ts).1.output_schemas q).isSome = true) ∧
    ((alookup node.kwargs q).isSome = true →
      (alookup (processNodeParties pyus node ts).1.kwargs q).isSome = true) := by
  intro pyus
  induction pyus with
  | nil => intro node ts; exact ⟨fun h => h, fun h => h, fun h => h⟩
  | cons p ps ih =>
    intro node ts
    rcases hps : processPartyStep node ts p with ⟨n1, ts1, e1⟩
    have hpres := processPartyStep_preserves node ts p q
    rw [hps] at hpres
    cases e1 with
    | none =>
      have heq : processNodeParties (p :: ps) node ts =
          processNodeParties ps n1 ts1 := by
        simp [processNodeParties, hps]
      rw [heq]
      have ihn := ih n1 ts1
      exact ⟨fun h => ihn.1 (hpres.1 h), fun h => ihn.2.1 (hpres.2.1 h),
        fun h => ihn.2.2 (hpres.2.2 h)⟩
    | some e =>
      have heq : processNodeParties (p :: ps) node ts = (n1, ts1, some e) := by
        simp [processNodeParties, hps]
      rw [heq]
      exact hpres

theorem processNodeParties_installs :
    ∀ (pyus : List String) (node : ServingNode) (ts : List (String × Schema)),
      (processNodeParties pyus node ts).2.2 = none →
      ∀ p ∈ pyus,
        (alookup (processNodeParties pyus node ts).1.input_schemas p).isSome = true ∧
        (alookup (processNodeParties pyus node ts).1.output_schemas p).isSome = true ∧
        (alookup (processNodeParties pyus node ts).1.kwargs p).isSome = true := by
  intro pyus
  induction pyus with
  | nil => intro node ts h p hp; cases hp
  | cons p0 ps ih =>
    intro node ts h p hp
    rcases hps : processPartyStep node ts p0 with ⟨n1, ts1, e1⟩
    cases e1 with
    | some e =>
      rw [show processNodeParties (p0 :: ps) node ts = (n1, ts1, some e) from
        by simp [processNodeParties, hps]] at h
      simp at h
    | none =>
      have heq : processNodeParties (p0 :: ps) node ts =
          processNodeParties ps n1 ts1 := by
        simp [processNodeParties, hps]
      rw [heq] at h ⊢
      rcases List.mem_cons.mp hp with rfl | hmem
      · have hinst := processPartyStep_installs node ts p (by rw [hps])
        rw [hps] at hinst
        have hpr := processNodeParties_preserves p ps n1 ts1
        exact ⟨hpr.1 hinst.1, hpr.2.1 hinst.2.1, hpr.2.2 hinst.2.2⟩
      · exact ih n1 ts1 h p hmem

theorem processNodeParties_err :
    ∀ (pyus : List String) (node : ServingNode) (ts : List (String × Schema))
      (e : Err), (processNodeParties pyus node ts).2.2 = some e →
      e = .gapNodeHasOutput ∨ e = .gapNodeHasKwargs ∨ e = .keyError := by
  intro pyus
  induction pyus with
  | nil => intro node ts e h; simp [processNodeParties] at h
  | cons p0 ps ih =>
    intro node ts e h
    rcases hps : processPartyStep node ts p0 with ⟨n1, ts1, e1⟩
    cases e1 with
    | some e0 =>
      rw [show processNodeParties (p0 :: ps) node ts = (n1, ts1, some e0) from
        by simp [processNodeParties, hps]] at h
      simp at h
      subst h
      exact processPartyStep_err node ts p0 e0 (by rw [hps])
    | none =>
      rw [show processNodeParties (p0 :: ps) node ts =
            processNodeParties ps n1 ts1 from by simp [processNodeParties, hps]] at h
      exact ih n1 ts1 e h

theorem processNodesRev_ok (pyus : List String) :
    ∀ (l : List ServingNode) (ts : List (String × Schema)),
      (processNodesRev pyus l ts).2.2 = none →
      (processNodesRev pyus l ts).1.length = l.length ∧
      ∀ node ∈ (processNodesRev pyus l ts).1, ∀ p ∈ pyus,
        (alookup node.input_schemas p).isSome = true ∧
        (alookup node.output_schemas p).isSome = true ∧
        (alookup node.kwargs p).isSome = true := by
  intro l
  induction l with
  | nil => intro ts _; exact ⟨rfl, by intro node hn; cases hn⟩
  | cons n rest ih =>
    intro ts h
    rcases hnp : processNodeParties pyus n ts with ⟨n1, ts1, e1⟩
    cases e1 with
    | some e =>
      rw [show processNodesRev pyus (n :: rest) ts = (n1 :: rest, ts1, some e) from
        by simp [processNodesRev, hnp]] at h
      simp at h
    | none =>
      have heq : processNodesRev pyus (n :: rest) ts =
          (n1 :: (processNodesRev pyus rest ts1).1,
           (processNodesRev pyus rest ts1).2.1,
           (processNodesRev pyus rest ts1).2.2) := by
        simp [processNodesRev, hnp]
      rw [heq] at h ⊢
      obtain ⟨hlen, hall⟩ := ih ts1 h
      refine ⟨by simp [hlen], ?_⟩
      intro node hn p hp
      rcases List.mem_cons.mp hn with rfl | hmem
      · have hinst := processNodeParties_installs pyus n ts (by rw [hnp]) p hp
        rw [hnp] at hinst
        exact hinst
      · exact hall node hmem p hp

theorem processNodesRev_err (pyus : List String) :
    ∀ (l : List ServingNode) (ts : List (String × Schema)) (e : Err),
      (processNodesRev pyus l ts).2.2 = some e →
      e = .gapNodeHasOutput ∨ e = .gapNodeHasKwargs ∨ e = .keyError := by
  intro l
  induction l with
  | nil => intro ts e h; simp [processNodesRev] at h
  | cons n rest ih =>
    intro ts e h
    rcases hnp : processNodeParties pyus n ts with ⟨n1, ts1, e1⟩
    cases e1 with
    | some e0 =>
      rw [show processNodesRev pyus (n :: rest) ts = (n1 :: rest, ts1, some e0) from
        by simp [processNodesRev, hnp]] at h
      simp at h
      subst h
      exact processNodeParties_err pyus n ts e0 (by rw [hnp])
    | none =>
      rw [show processNodesRev pyus (n :: rest) ts =
            (n1 :: (processNodesRev pyus rest ts1).1,
             (processNodesRev pyus rest ts1).2.1,
             (processNodesRev pyus rest ts1).2.2) from
        by simp [processNodesRev, hnp]] at h
      exact ih ts1 e h

theorem collectRun_err :
    ∀ (ns : List ServingNode) (e : Err), collectRun ns = .error e →
      ∃ ph, e = .invalidPhase ph := by
  intro ns
  induction ns with
  | nil => intro e h; simp [collectRun] at h
  | cons n rest ih =>
    intro e h
    unfold collectRun at h
    cases hph : n.phase <;> rw [hph] at h
    · cases hcr : collectRun rest with
      | ok run => rw [hcr] at h; simp at h
      | error e2 =>
        rw [hcr] at h
        simp at h
        exact h ▸ ih e2 hcr
    · simp at h
    · simp at h
      exact ⟨.POSTPROCESSING, h.symm⟩

theorem collectRun_take :
    ∀ (ns run : List ServingNode), collectRun ns = .ok run →
      ns = run ++ ns.drop run.length := by
  intro ns
  induction ns with
  | nil =>
    intro run h
    simp [collectRun] at h
    subst h
    rfl
  | cons n rest ih =>
    intro run h
    unfold collectRun at h
    cases hph : n.phase <;> rw [hph] at h
    · cases hcr : collectRun rest with
      | error e => rw [hcr] at h; simp at h
      | ok r2 =>
        rw [hcr] at h
        simp at h
        rw [← h]
        have := ih r2 hcr
        calc n :: rest = n :: (r2 ++ rest.drop r2.length) := by rw [← this]
          _ = (n :: r2) ++ (n :: rest).drop (n :: r2).length := by
              simp [List.drop_succ_cons]
    · simp at h
      rw [← h]
      rfl
    · simp at h

theorem eq_dropLast_append_of_getLastQ {α : Type} :
    ∀ (l : List α) (a : α), l.getLast? = some a → l = l.dropLast ++ [a] := by
  intro l
  induction l with
  | nil => intro a h; simp at h
  | cons x xs ih =>
    intro a h
    cases xs with
    | nil =>
      simp at h
      rw [h]
      rfl
    | cons y ys =>
      rw [List.getLast?_cons_cons] at h
      have hr := ih a h
      rw [show (x :: y :: ys).dropLast = x :: (y :: ys).dropLast from rfl,
        List.cons_append, ← hr]

/-- Claim C10: when rebuild_preprocessing_nodes exits with the
invalid-columns validation error, the raise is not atomic with respect to
the pipeline: the collected run of the pipeline splits at the boundary
node (the last node of the run returned by collectRun), the backward pass
over the whole upstream segment has already completed without error, the
error is exactly the validation of the trace schemas that this completed
pass produced, and the builder state at the raise holds the pass's
rewritten upstream nodes in place of the originals (boundary node and
suffix unchanged), each rewritten node carrying an installed per-party
fragment — input schema, output schema and payload kwargs — for every
party of the builder. -/
theorem rebuild_invalid_columns_after_rewrite (builder : ServingBuilder)
    (init_schemas : List (String × Schema)) (b' : ServingBuilder)
    (cols : List (String × List String))
    (h : rebuild_preprocessing_nodes builder init_schemas =
      (b', .error (.invalidColumns cols))) :
    ∃ run last,
      collectRun builder.nodes = .ok run ∧
      run.getLast? = some last ∧
      builder.nodes = run.dropLast ++ last :: builder.nodes.drop run.length ∧
      (processNodesRev builder.pyus run.dropLast.reverse
        last.input_schemas).2.2 = none ∧
      validateTrace init_schemas (processNodesRev builder.pyus
        run.dropLast.reverse last.input_schemas).2.1 =
        .error (.invalidColumns cols) ∧
      b'.nodes = (processNodesRev builder.pyus run.dropLast.reverse
        last.input_schemas).1.reverse ++
        last :: builder.nodes.drop run.length ∧
      (processNodesRev builder.pyus run.dropLast.reverse
        last.input_schemas).1.length = run.dropLast.length ∧
      (∀ node ∈ (processNodesRev builder.pyus run.dropLast.reverse
          last.input_schemas).1, ∀ p ∈ builder.pyus,
        (alookup node.input_schemas p).isSome = true ∧
        (alookup node.output_schemas p).isSome = true ∧
        (alookup node.kwargs p).isSome = true) := by
  unfold rebuild_preprocessing_nodes at h
  split at h
  · simp at h
  · split at h
    · split at h
      · rename_i e heqcr
        have hcols : e = .invalidColumns cols := by simp at h; exact h.2
        obtain ⟨ph, hph⟩ := collectRun_err builder.nodes e heqcr
        rw [hph] at hcols
        simp at hcols
      · rename_i run heqcr
        split at h
        · simp at h
        · rename_i last heqlast
          dsimp only [] at h
          split at h
          · rename_i e heqsome
            have hcols : e = .invalidColumns cols := by simp at h; exact h.2
            rcases processNodesRev_err builder.pyus _ _ e heqsome with h1 | h1 | h1 <;>
              (rw [h1] at hcols; simp at hcols)
          · rename_i heqnone
            split at h
            · rename_i e heqv
              simp only [Prod.mk.injEq] at h
              have hcols : e = .invalidColumns cols := by
                have := h.2
                simp at this
                exact this
              rw [hcols] at heqv
              have hbn : b'.nodes =
                  (processNodesRev builder.pyus run.dropLast.reverse
                    last.input_schemas).1.reverse ++
                  last :: builder.nodes.drop run.length := by
                rw [← h.1]
              obtain ⟨hlenP, hallP⟩ := processNodesRev_ok builder.pyus
                run.dropLast.reverse last.input_schemas heqnone
              have hnodes := collectRun_take builder.nodes run heqcr
              have hrun := eq_dropLast_append_of_getLastQ run last heqlast
              rw [List.length_reverse] at hlenP
              refine ⟨run, last, heqcr, heqlast, ?_, heqnone, heqv, hbn,
                hlenP, hallP⟩
              set L := run.dropLast with hL
              set D := builder.nodes.drop run.length with hD
              rw [hnodes, hrun, List.append_assoc, List.singleton_append]
            · rename_i used heqv
              simp at h
    · simp at h

def preBadNodeEx : ServingNode :=
  { name := "preBad", phase := .PREPROCESSING,
    input_schemas := [("bob", [fX, fYs])],
    output_schemas := [("bob", [fX])],
    kwargs := [("bob", ⟨[fX, fYs], [fX], .payload 1⟩)] }

def builderBadEx : ServingBuilder := ⟨["bob"], [preBadNodeEx, tpNodeEx]⟩

theorem rebuild_invalid_columns_after_rewrite_witness :
    ∃ run last,
      collectRun builderBadEx.nodes = .ok run ∧
      run.getLast? = some last ∧
      builderBadEx.nodes =
        run.dropLast ++ last :: builderBadEx.nodes.drop run.length ∧
      (processNodesRev builderBadEx.pyus run.dropLast.reverse
        last.input_schemas).2.2 = none ∧
      validateTrace initBobEx (processNodesRev builderBadEx.pyus
        run.dropLast.reverse last.input_schemas).2.1 =
        .error (.invalidColumns [("bob", ["y"])]) ∧
      (rebuild_preprocessing_nodes builderBadEx initBobEx).1.nodes =
        (processNodesRev builderBadEx.pyus run.dropLast.reverse
          last.input_schemas).1.reverse ++
        last :: builderBadEx.nodes.drop run.length ∧
      (processNodesRev builderBadEx.pyus run.dropLast.reverse
        last.input_schemas).1.length = run.dropLast.length ∧
      (∀ node ∈ (processNodesRev builderBadEx.pyus run.dropLast.reverse
          last.input_schemas).1, ∀ p ∈ builderBadEx.pyus,
        (alookup node.input_schemas p).isSome = true ∧
        (alookup node.output_schemas p).isSome = true ∧
        (alookup node.kwargs p).isSome = true) :=
  rebuild_invalid_columns_after_rewrite builderBadEx initBobEx
    (rebuild_preprocessing_nodes builderBadEx initBobEx).1 [("bob", ["y"])] rfl

end SFModelExport
